import Mathlib

/-!
Shallow embedding of `torusresearch/lattice-oprf-fhe` (src/src/lib.rs and
src/src/vec.rs): a homomorphically evaluated learning-with-rounding PRF.

Modelling conventions:
* A TFHE `RadixCiphertext` built from `NUM_BLOCKS` blocks of the
  `PARAM_MESSAGE_2_CARRY_2_KS_PBS` parameter set (2 message bits per block)
  carries a plaintext value modulo `4^NUM_BLOCKS = 2^LOG2Q`.  We model it as
  a structure `Ct` holding that plaintext value together with an opaque
  `rand` component standing for the encryption randomness / key-dependent
  ciphertext material; `decrypt` never reads `rand`.
* Homomorphic operations (`scalar_mul_parallelized`,
  `unchecked_sum_ciphertexts_vec_parallelized`,
  `scalar_right_shift_parallelized`) act on the value component modulo the
  radix width; `unchecked_sum_ciphertexts_vec_parallelized` returns `none`
  on an empty list (the source calls `.unwrap()` on it, so `none` models the
  panic).
* Rust panics (`unwrap` on `Option`/`try_into`) are modelled by `Option`.
* The external hash (`D: Digest`) and the deterministic PRNG
  (`RandomGenerator` seeded from the hash) are out-of-scope collaborators;
  they enter as parameters: `D : List Nat → List Nat` is the digest as a
  byte list, and `R : Nat → Nat → Nat` gives, for a seed, the stream of
  64-bit draws (each modelled modulo `2^64`, the width of the 8-byte buffer
  filled by `fill_slice_with_random_uniform`).
-/

namespace LatticeOprf

/-- `LATTICE_DIM` from lib.rs. -/
def LATTICE_DIM : Nat := 8

/-- `LOG2Q` from lib.rs. -/
def LOG2Q : Nat := 12

/-- `LOG2P` from lib.rs. -/
def LOG2P : Nat := 8

/-- `OUT_LEN` from lib.rs. -/
def OUT_LEN : Nat := 16

/-- Message bits per shortint block of `PARAM_MESSAGE_2_CARRY_2_KS_PBS`
(`message_modulus = 4`, so `ilog2 = 2`). -/
def MESSAGE_BITS : Nat := 2

/-- `NUM_BLOCKS = LOG2Q / message_bits` from lib.rs. -/
def NUM_BLOCKS : Nat := LOG2Q / MESSAGE_BITS

/-- `Q_BYTES = LOG2Q.div_ceil(8)` from lib.rs. -/
def Q_BYTES : Nat := (LOG2Q + 7) / 8

/-- `P_BYTES = LOG2P.div_ceil(8)` from lib.rs. -/
def P_BYTES : Nat := (LOG2P + 7) / 8

/-- The large modulus `q = 2^LOG2Q`. -/
def q : Nat := 2 ^ LOG2Q

/-- The small modulus `p = 2^LOG2P`. -/
def p : Nat := 2 ^ LOG2P

/-- Plaintext modulus of a radix ciphertext with `NUM_BLOCKS` blocks of
`MESSAGE_BITS` message bits: `(2^MESSAGE_BITS)^NUM_BLOCKS`.  With the
source's parameters this equals `2^12 = q`. -/
def radixMod : Nat := (2 ^ MESSAGE_BITS) ^ NUM_BLOCKS

/-- `SIZE` inside `generate_prf_key`/`encode`/`decrypt`:
`Q_BYTES.div_ceil(8)` u64 limbs of the `StaticUnsignedBigInt`. -/
def LIMBS : Nat := (Q_BYTES + 7) / 8

/-- A `RadixCiphertext`: plaintext value plus opaque randomness.  The value
component is what decryption recovers; the `rand` component stands for the
probabilistic ciphertext material and is ignored by decryption. -/
structure Ct where
  val : Nat
  rand : Nat
  deriving DecidableEq, Repr

/-- `RadixClientKey::encrypt` on a `NUM_BLOCKS`-block key: the plaintext is
encoded modulo `radixMod`; `rnd` is the fresh encryption randomness. -/
def encryptCt (r rnd : Nat) : Ct := ⟨r % radixMod, rnd⟩

/-- `ServerKey::create_trivial_radix` with `NUM_BLOCKS` blocks: a trivial
(unencrypted) ciphertext of the value modulo `radixMod`; no randomness. -/
def create_trivial_radix (r : Nat) : Ct := ⟨r % radixMod, 0⟩

/-- Radix decryption: recovers the carried value modulo the plaintext
modulus `radixMod`. -/
def decRadix (c : Ct) : Nat := c.val % radixMod

/-- `ServerKey::scalar_mul_parallelized`: homomorphic multiplication of a
ciphertext by a plaintext scalar, modulo the radix width. -/
def scalar_mul_parallelized (c : Ct) (s : Nat) : Ct :=
  ⟨c.val * s % radixMod, c.rand⟩

/-- `ServerKey::unchecked_sum_ciphertexts_vec_parallelized`: homomorphic sum
of a list of ciphertexts, `none` on the empty list (the source unwraps the
result, so `none` is the panic). -/
def unchecked_sum_ciphertexts_vec_parallelized (l : List Ct) : Option Ct :=
  if l = [] then none
  else some ⟨(l.map Ct.val).sum % radixMod, (l.map Ct.rand).sum⟩

/-- `ServerKey::scalar_right_shift_parallelized`: homomorphic logical right
shift of the carried value. -/
def scalar_right_shift_parallelized (c : Ct) (k : Nat) : Ct :=
  ⟨c.val % radixMod / 2 ^ k, c.rand⟩

/-- `vec_mul_vec` from vec.rs: zip the ciphertext row with the plaintext
scalar vector (`zip` truncates to the shorter), scalar-multiply pointwise,
then homomorphically sum; the source unwraps the sum, so an empty zip is a
panic (`none`). -/
def vec_mul_vec (m : List Ct) (v : List Nat) : Option Ct :=
  unchecked_sum_ciphertexts_vec_parallelized
    ((m.zip v).map fun ab => scalar_mul_parallelized ab.1 ab.2)

/-- `mat_mul_vec` from vec.rs: `vec_mul_vec` on every row; a panic in any
row aborts the whole call. -/
def mat_mul_vec (m : List (List Ct)) (v : List Nat) : Option (List Ct) :=
  m.mapM fun row => vec_mul_vec row v

/-- `eval` from lib.rs: `mat_mul_vec` against the PRF key (operating as the
plaintext scalar vector of `vec_mul_vec`), then a homomorphic right shift by
`LOG2Q - LOG2P` bits on every row result. -/
def eval (prf_key : List Nat) (h : List (List Ct)) : Option (List Ct) :=
  (mat_mul_vec h prf_key).map fun v =>
    v.map fun x => scalar_right_shift_parallelized x (LOG2Q - LOG2P)

/-- `generate_prf_key` from lib.rs: `LATTICE_DIM` coordinates, each obtained
by filling an 8-byte buffer with uniform bytes (a u64 draw, modelled by
`R i % 2^64` from a securely seeded stream `R`), loading it little-endian
into a one-limb big integer and trivially encoding it with `NUM_BLOCKS`
radix blocks. -/
def generate_prf_key (R : Nat → Nat) : List Ct :=
  (List.range LATTICE_DIM).map fun i => create_trivial_radix (R i % 2 ^ 64)

/-- Little-endian byte `i` of a natural number. -/
def leByte (v i : Nat) : Nat := v / 256 ^ i % 256

/-- `NUM_ROWS = OUT_LEN.div_ceil(P_BYTES)` inside `encode`. -/
def NUM_ROWS : Nat := (OUT_LEN + P_BYTES - 1) / P_BYTES

/-- The seed of `encode`: the first 16 bytes of the digest of `x`,
interpreted as a little-endian 128-bit integer. -/
def seedOf (D : List Nat → List Nat) (x : List Nat) : Nat :=
  ((D x).take 16).reverse.foldl (fun acc b => acc * 256 + b % 256) 0

/-- `encode` from lib.rs: seed a deterministic generator from the digest of
`x`; for each of `NUM_ROWS` rows draw `LATTICE_DIM` u64 values (row `i`,
column `j` consumes draw `i * LATTICE_DIM + j` of the stream) and encrypt
each under the client key.  `ρ i j` is the encryption randomness (and
key-dependent ciphertext material) of entry `(i, j)`. -/
def encode (D : List Nat → List Nat) (R : Nat → Nat → Nat)
    (x : List Nat) (ρ : Nat → Nat → Nat) : List (List Ct) :=
  (List.range NUM_ROWS).map fun i =>
    (List.range LATTICE_DIM).map fun j =>
      encryptCt (R (seedOf D x) (i * LATTICE_DIM + j) % 2 ^ 64) (ρ i j)

/-- The byte chunk of one decrypted value in `decrypt`: serialize the u64 to
its `LIMBS * 8` little-endian bytes and keep the first `P_BYTES`. -/
def leBytesChunk (v : Nat) : List Nat :=
  ((List.range (LIMBS * 8)).map fun i => leByte v i).take P_BYTES

/-- The bytes contributed by one ciphertext in `decrypt`. -/
def decryptCtBytes (c : Ct) : List Nat := leBytesChunk (decRadix c)

/-- `decrypt` from lib.rs: per-ciphertext bytes concatenated in row order;
the final `try_into().unwrap()` into `[u8; OUT_LEN]` panics (`none`) unless
the concatenation is exactly `OUT_LEN` bytes. -/
def decrypt (ct : List Ct) : Option (List Nat) :=
  if ((ct.map decryptCtBytes).flatten).length = OUT_LEN
  then some ((ct.map decryptCtBytes).flatten) else none

/-- The full PRF pipeline of the test in lib.rs: encode the input, evaluate
homomorphically against the PRF key, decrypt.  `none` models a panic in any
stage. -/
def pipeline (D : List Nat → List Nat) (R : Nat → Nat → Nat)
    (s : List Nat) (x : List Nat) (ρ : Nat → Nat → Nat) : Option (List Nat) :=
  (eval s (encode D R x ρ)).bind decrypt

/-! Value-level companions: the plaintext carried through each stage,
stripped of ciphertext material.  These are used to express that outputs
depend only on plaintext values, never on encryption randomness. -/

/-- Value of one row of `vec_mul_vec`: pointwise products modulo the radix
width, summed modulo the radix width. -/
def rowVal (rv v : List Nat) : Nat :=
  (((rv.zip v).map fun ab => ab.1 * ab.2 % radixMod).sum) % radixMod

/-- The plaintext matrix underlying `encode`: what every entry of the
encoded matrix decrypts to. -/
def encodeVals (D : List Nat → List Nat) (R : Nat → Nat → Nat)
    (x : List Nat) : List (List Nat) :=
  (List.range NUM_ROWS).map fun i =>
    (List.range LATTICE_DIM).map fun j =>
      R (seedOf D x) (i * LATTICE_DIM + j) % 2 ^ 64 % radixMod

/-- `decrypt` as a function of the carried values only. -/
def decryptVals (ts : List Nat) : Option (List Nat) :=
  if ((ts.map fun t => leBytesChunk (t % radixMod)).flatten).length = OUT_LEN
  then some ((ts.map fun t => leBytesChunk (t % radixMod)).flatten) else none

/-! Spec-side definitions, used only to compare against the embedded code. -/

/-- Modelled from the spec: the clear-text reference computation of one
row — the inner product `row · s` computed without encryption, reduced
modulo `q`, then rounded via `value >> (LOG2Q - LOG2P)`. -/
def clearRowRound (row s : List Nat) : Nat :=
  ((((row.zip s).map fun ab => ab.1 * ab.2).sum) % q) / 2 ^ (LOG2Q - LOG2P)

/-- Modelled from the spec: the lowest `P_BYTES` bytes of the little-endian
serialization of a value. -/
def lowLEBytes (t : Nat) : List Nat :=
  (List.range P_BYTES).map fun i => leByte t i

/-- Entrywise encryption of a plaintext matrix under the client key, with
encryption randomness `ρ i j` for entry `(i, j)`. -/
def encryptMatrix (h : List (List Nat)) (ρ : Nat → Nat → Nat) : List (List Ct) :=
  h.enum.map fun ir => ir.2.enum.map fun ja => encryptCt ja.2 (ρ ir.1 ja.1)

/-! ### Helper lemmas -/

lemma radixMod_eq_q : radixMod = q := rfl

lemma radixMod_pos : 0 < radixMod := by decide

lemma rowVal_lt (rv v : List Nat) : rowVal rv v < radixMod :=
  Nat.mod_lt _ radixMod_pos

/-- `vec_mul_vec` in closed form: panic exactly when the zipped list is
empty, otherwise the sum of the pointwise scalar products modulo the radix
width (value side) with the randomness carried along. -/
lemma vec_mul_vec_eq (m : List Ct) (v : List Nat) :
    vec_mul_vec m v =
      if m = [] ∨ v = [] then none
      else some ⟨rowVal (m.map Ct.val) v, ((m.zip v).map fun ab => ab.1.rand).sum⟩ := by
  unfold vec_mul_vec unchecked_sum_ciphertexts_vec_parallelized rowVal
  rw [List.zip_map_left]
  simp only [List.map_eq_nil_iff, List.zip_eq_nil_iff, List.map_map]
  split
  · rfl
  · simp [Function.comp_def, scalar_mul_parallelized, Prod.map]

lemma vec_mul_vec_isSome (m : List Ct) (v : List Nat)
    (hm : m ≠ []) (hv : v ≠ []) : (vec_mul_vec m v).isSome := by
  rw [vec_mul_vec_eq]
  simp [hm, hv]

lemma vec_mul_vec_nil (v : List Nat) : vec_mul_vec [] v = none := by
  rw [vec_mul_vec_eq]; simp

/-- Characterization of a successful `mapM` over `Option`. -/
lemma mapM_eq_some {α β : Type} {f : α → Option β} :
    ∀ {l : List α} {out : List β}, l.mapM f = some out →
      out.length = l.length ∧
        ∀ i (h1 : i < l.length) (h2 : i < out.length),
          f (l.get ⟨i, h1⟩) = some (out.get ⟨i, h2⟩) := by
  intro l
  induction l with
  | nil =>
    intro out h
    simp only [List.mapM_nil, pure, Option.some.injEq] at h
    subst h
    exact ⟨rfl, fun i h1 h2 => absurd h1 (Nat.not_lt_zero i)⟩
  | cons a t ih =>
    intro out h
    rw [List.mapM_cons] at h
    cases ha : f a with
    | none => rw [ha] at h; simp at h
    | some b =>
      rw [ha] at h
      cases ht : t.mapM f with
      | none => rw [ht] at h; simp at h
      | some bs =>
        rw [ht] at h
        have h2 : b :: bs = out := by
          simpa using h
        subst h2
        obtain ⟨hlen, hget⟩ := ih ht
        refine ⟨by simp [hlen], ?_⟩
        intro i h1 h2
        cases i with
        | zero => simpa using ha
        | succ n =>
          simp only [List.get_cons_succ]
          exact hget n (Nat.lt_of_succ_lt_succ h1) (Nat.lt_of_succ_lt_succ h2)

/-- A `mapM` over `Option` succeeds when every element succeeds. -/
lemma mapM_isSome {α β : Type} {f : α → Option β} :
    ∀ {l : List α}, (∀ a ∈ l, (f a).isSome) → (l.mapM f).isSome := by
  intro l
  induction l with
  | nil => intro _; rfl
  | cons a t ih =>
    intro h
    rw [List.mapM_cons]
    have ha := h a (List.mem_cons_self a t)
    cases hfa : f a with
    | none => rw [hfa] at ha; simp at ha
    | some b =>
      have ht := ih fun x hx => h x (List.mem_cons_of_mem a hx)
      cases hft : t.mapM f with
      | none => rw [hft] at ht; simp at ht
      | some bs => simp

/-- `mat_mul_vec` in closed form when no row panics: one summed ciphertext
per row. -/
lemma mat_mul_vec_eq_some (m : List (List Ct)) (v : List Nat)
    (hm : ∀ row ∈ m, row ≠ []) (hv : v ≠ []) :
    mat_mul_vec m v =
      some (m.map fun row =>
        ⟨rowVal (row.map Ct.val) v, ((row.zip v).map fun ab => ab.1.rand).sum⟩) := by
  induction m with
  | nil => rfl
  | cons row t ih =>
    have hrow : row ≠ [] := hm row (List.mem_cons_self row t)
    have ht := ih fun r hr => hm r (List.mem_cons_of_mem row hr)
    unfold mat_mul_vec at ht ⊢
    rw [List.mapM_cons, vec_mul_vec_eq, ht]
    have hcond : ¬(row = [] ∨ v = []) := by simp [hrow, hv]
    rw [if_neg hcond]
    simp

/-- `eval` in closed form when no row panics: the summed row value,
right-shifted by `LOG2Q - LOG2P` bits. -/
lemma eval_eq_some (s : List Nat) (m : List (List Ct))
    (hm : ∀ row ∈ m, row ≠ []) (hs : s ≠ []) :
    eval s m =
      some (m.map fun row =>
        ⟨rowVal (row.map Ct.val) s / 2 ^ (LOG2Q - LOG2P),
         ((row.zip s).map fun ab => ab.1.rand).sum⟩) := by
  unfold eval
  rw [mat_mul_vec_eq_some m s hm hs]
  simp only [Option.map_some', Option.some.injEq, List.map_map]
  apply List.map_congr_left
  intro row _
  simp [scalar_right_shift_parallelized, Nat.mod_eq_of_lt (rowVal_lt _ _)]

/-- Values after the rounding shift are below `p`. -/
lemma shift_lt_p (a : Nat) : a % radixMod / 2 ^ (LOG2Q - LOG2P) < p := by
  have h1 : a % radixMod < radixMod := Nat.mod_lt _ radixMod_pos
  have h3 : radixMod = p * 2 ^ (LOG2Q - LOG2P) := by decide
  exact Nat.div_lt_of_lt_mul (h3 ▸ h1)

/-- Every byte chunk in `decrypt` has exactly `P_BYTES` bytes. -/
lemma leBytesChunk_length (v : Nat) : (leBytesChunk v).length = P_BYTES := by
  simp [leBytesChunk]
  decide

/-- The serialize-then-truncate of the source equals the spec's lowest
`P_BYTES` little-endian bytes. -/
lemma leBytesChunk_eq_lowLEBytes (v : Nat) : leBytesChunk v = lowLEBytes v := by
  unfold leBytesChunk lowLEBytes
  rw [← List.map_take, List.take_range]
  have hmin : min P_BYTES (LIMBS * 8) = P_BYTES := by decide
  rw [hmin]

/-- `decrypt` only reads the carried plaintext values. -/
lemma decrypt_eq_decryptVals (ct : List Ct) :
    decrypt ct = decryptVals (ct.map Ct.val) := by
  unfold decrypt decryptVals decryptCtBytes decRadix
  simp [List.map_map, Function.comp_def]

/-- Length of the byte concatenation in `decrypt`. -/
lemma decryptVals_flatten_length (ts : List Nat) :
    ((ts.map fun t => leBytesChunk (t % radixMod)).flatten).length
      = ts.length * P_BYTES := by
  rw [List.length_flatten, List.map_map]
  have h1 : (List.map (List.length ∘ fun t => leBytesChunk (t % radixMod)) ts)
      = List.map (fun _ => P_BYTES) ts := by
    apply List.map_congr_left
    intro a _
    simp [leBytesChunk_length]
  rw [h1, List.map_const']
  simp [List.sum_replicate, smul_eq_mul, Nat.mul_comm]

/-- `decryptVals` succeeds exactly on value lists of the output length. -/
lemma decryptVals_eq (ts : List Nat) :
    decryptVals ts =
      if ts.length = OUT_LEN / P_BYTES
      then some ((ts.map fun t => leBytesChunk (t % radixMod)).flatten)
      else none := by
  unfold decryptVals
  rw [decryptVals_flatten_length]
  have hcond : (ts.length * P_BYTES = OUT_LEN) ↔ (ts.length = OUT_LEN / P_BYTES) := by
    have hp : P_BYTES = 1 := rfl
    have ho : OUT_LEN = 16 := rfl
    rw [hp, ho]
    omega
  simp only [hcond]

/-- The encoded matrix has `NUM_ROWS` rows. -/
lemma encode_length (D : List Nat → List Nat) (R : Nat → Nat → Nat)
    (x : List Nat) (ρ : Nat → Nat → Nat) :
    (encode D R x ρ).length = NUM_ROWS := by
  simp [encode]

/-- Every row of the encoded matrix has `LATTICE_DIM` entries. -/
lemma encode_row_length (D : List Nat → List Nat) (R : Nat → Nat → Nat)
    (x : List Nat) (ρ : Nat → Nat → Nat) :
    ∀ row ∈ encode D R x ρ, row.length = LATTICE_DIM := by
  intro row hrow
  obtain ⟨i, _, hrow⟩ := List.mem_map.mp hrow
  subst hrow
  simp

/-- No row of the encoded matrix is empty. -/
lemma encode_row_ne_nil (D : List Nat → List Nat) (R : Nat → Nat → Nat)
    (x : List Nat) (ρ : Nat → Nat → Nat) :
    ∀ row ∈ encode D R x ρ, row ≠ [] := by
  intro row hrow
  have hl := encode_row_length D R x ρ row hrow
  intro hnil
  rw [hnil] at hl
  exact absurd hl (by decide)

/-- The plaintext values of the encoded matrix do not depend on the
encryption randomness. -/
lemma encode_map_val (D : List Nat → List Nat) (R : Nat → Nat → Nat)
    (x : List Nat) (ρ : Nat → Nat → Nat) :
    (encode D R x ρ).map (List.map Ct.val) = encodeVals D R x := rfl

/-- Congruence of a sum modulo the radix width: reducing each product
factor first does not change the result. -/
lemma sum_mul_mod (l : List (Nat × Nat)) :
    ((l.map fun ab => ab.1 % radixMod * ab.2 % radixMod).sum) % radixMod
      = ((l.map fun ab => ab.1 * ab.2).sum) % radixMod := by
  induction l with
  | nil => rfl
  | cons a t ih =>
    simp only [List.map_cons, List.sum_cons]
    have hx : a.1 % radixMod * a.2 % radixMod ≡ a.1 * a.2 [MOD radixMod] :=
      (Nat.mod_modEq (a.1 % radixMod * a.2) radixMod).trans
        (Nat.ModEq.mul_right a.2 (Nat.mod_modEq a.1 radixMod))
    exact Nat.ModEq.add hx ih

/-- The value of a row of products of reduced entries equals the clear
inner product modulo `q`. -/
lemma rowVal_map_mod (row s : List Nat) :
    rowVal (row.map fun a => a % radixMod) s
      = (((row.zip s).map fun ab => ab.1 * ab.2).sum) % radixMod := by
  unfold rowVal
  rw [List.zip_map_left, List.map_map]
  exact sum_mul_mod (row.zip s)

/-- Rounding the reduced-entry row value gives the spec's clear
computation. -/
lemma rowVal_clear (row s : List Nat) :
    rowVal (row.map fun a => a % radixMod) s / 2 ^ (LOG2Q - LOG2P)
      = clearRowRound row s := by
  rw [rowVal_map_mod]
  rfl

/-- Mapping over the second components of an enumeration ignores the
indices. -/
lemma enum_map_snd_comp {α β : Type} (l : List α) (f : α → β) :
    l.enum.map (fun ja => f ja.2) = l.map f := by
  have h1 : l.enum.map (fun ja => f ja.2) = (l.enum.map Prod.snd).map f := by
    rw [List.map_map]
    rfl
  rw [h1, List.enum_map_snd]

/-- `encryptMatrix` preserves the matrix shape. -/
lemma encryptMatrix_length (h : List (List Nat)) (ρ : Nat → Nat → Nat) :
    (encryptMatrix h ρ).length = h.length := by
  simp [encryptMatrix]

/-- The plaintext values of an encrypted matrix: every entry reduced modulo
the radix width, independent of the encryption randomness. -/
lemma encryptMatrix_map_val (h : List (List Nat)) (ρ : Nat → Nat → Nat) :
    (encryptMatrix h ρ).map (List.map Ct.val)
      = h.map (List.map fun a => a % radixMod) := by
  unfold encryptMatrix
  rw [List.map_map]
  have h1 : (List.map Ct.val ∘ fun ir : Nat × List Nat =>
        ir.2.enum.map fun ja => encryptCt ja.2 (ρ ir.1 ja.1))
      = fun ir : Nat × List Nat => ir.2.map fun a => a % radixMod := by
    funext ir
    simp only [Function.comp_apply, List.map_map]
    exact enum_map_snd_comp ir.2 fun a => a % radixMod
  rw [h1]
  exact enum_map_snd_comp h (List.map fun a => a % radixMod)

/-- A successful `eval` forces every row non-empty and, when the matrix is
non-empty, a non-empty key. -/
lemma eval_some_inv (s : List Nat) (m : List (List Ct)) (v : List Ct)
    (h : eval s m = some v) :
    (∀ row ∈ m, row ≠ []) ∧ (m = [] ∨ s ≠ []) := by
  unfold eval at h
  cases hmat : mat_mul_vec m s with
  | none => rw [hmat] at h; simp at h
  | some w =>
    obtain ⟨hlen, hget⟩ := mapM_eq_some hmat
    have hrow : ∀ row ∈ m, row ≠ [] ∧ s ≠ [] := by
      intro row hmem
      obtain ⟨i, hi⟩ := List.mem_iff_get.mp hmem
      have hvv := hget i.1 i.2 (by omega)
      rw [hi, vec_mul_vec_eq] at hvv
      by_contra hc
      rw [not_and_or, not_not, not_not] at hc
      rw [if_pos (by tauto)] at hvv
      exact Option.noConfusion hvv
    refine ⟨fun row hmem => (hrow row hmem).1, ?_⟩
    cases m with
    | nil => exact Or.inl rfl
    | cons r t => exact Or.inr (hrow r (List.mem_cons_self r t)).2

/-- Length of the spec-side byte chunk. -/
lemma lowLEBytes_length (t : Nat) : (lowLEBytes t).length = P_BYTES := by
  simp [lowLEBytes]

/-! ### Claim theorems -/

/-- Claim C4: every call to `generate_prf_key` returns a vector of exactly
`LATTICE_DIM` ring elements; each coordinate lies in `[0, q)`, and each is a
trivial (plaintext) radix encoding, carrying no encryption randomness. -/
theorem generate_prf_key_dim_range (R : Nat → Nat) :
    (generate_prf_key R).length = LATTICE_DIM ∧
      ∀ c ∈ generate_prf_key R, c.val < q ∧ c.rand = 0 := by
  constructor
  · simp [generate_prf_key]
  · intro c hc
    obtain ⟨i, _, hc⟩ := List.mem_map.mp hc
    subst hc
    exact ⟨Nat.mod_lt _ radixMod_pos, rfl⟩

/-- Witness for C4 at a concrete generator. -/
theorem generate_prf_key_dim_range_witness :
    (generate_prf_key fun _ => 0).length = LATTICE_DIM ∧
      (Ct.mk 0 0).val < q ∧ (Ct.mk 0 0).rand = 0 :=
  ⟨(generate_prf_key_dim_range fun _ => 0).1,
   (generate_prf_key_dim_range fun _ => 0).2 (Ct.mk 0 0) (by decide)⟩

/-- Claim C6: the plaintext matrix underlying `encode(client_key, x)` is a
function of `x` alone — for any two runs with the same `x` (any client keys,
any encryption randomness, both folded into `ρ`), the entries decrypt to
identical values in every position.  `encode` takes no PRF-key argument, so
the computation cannot read the PRF secret key. -/
theorem encode_plaintext_deterministic (D : List Nat → List Nat)
    (R : Nat → Nat → Nat) (x : List Nat) (ρ1 ρ2 : Nat → Nat → Nat) :
    (encode D R x ρ1).map (List.map decRadix)
      = (encode D R x ρ2).map (List.map decRadix) := rfl

/-- Claim C7: `encode` returns `⌈OUT_LEN / P_BYTES⌉` rows of `LATTICE_DIM`
ciphertexts each, every entry carrying a ring element below `q`. -/
theorem encode_shape (D : List Nat → List Nat) (R : Nat → Nat → Nat)
    (x : List Nat) (ρ : Nat → Nat → Nat) :
    (encode D R x ρ).length = NUM_ROWS ∧
      ∀ row ∈ encode D R x ρ,
        row.length = LATTICE_DIM ∧ ∀ c ∈ row, c.val < q := by
  refine ⟨encode_length D R x ρ, fun row hrow => ⟨encode_row_length D R x ρ row hrow, ?_⟩⟩
  intro c hc
  obtain ⟨i, _, hrow⟩ := List.mem_map.mp hrow
  subst hrow
  obtain ⟨j, _, hc⟩ := List.mem_map.mp hc
  subst hc
  exact Nat.mod_lt _ radixMod_pos

/-- Witness for C7 at concrete hash, generator, input and randomness. -/
theorem encode_shape_witness :
    (encode (fun _ => []) (fun _ _ => 0) [] fun _ _ => 0).length = NUM_ROWS ∧
      (List.replicate 8 (Ct.mk 0 0)).length = LATTICE_DIM :=
  ⟨(encode_shape (fun _ => []) (fun _ _ => 0) [] fun _ _ => 0).1,
   ((encode_shape (fun _ => []) (fun _ _ => 0) [] fun _ _ => 0).2
      (List.replicate 8 (Ct.mk 0 0)) (by decide)).1⟩

/-- Claim C9: `decrypt` returns normally exactly when the ciphertext list
has `OUT_LEN / P_BYTES` elements; any other length makes the conversion to
the fixed-size array panic. -/
theorem decrypt_succeeds_iff_length (cts : List Ct) :
    (decrypt cts).isSome ↔ cts.length = OUT_LEN / P_BYTES := by
  rw [decrypt_eq_decryptVals, decryptVals_eq]
  by_cases hl : (cts.map Ct.val).length = OUT_LEN / P_BYTES
  · rw [if_pos hl]
    simp only [List.length_map] at hl
    simp [hl]
  · rw [if_neg hl]
    simp only [List.length_map] at hl
    simp [hl]

/-- Counterexample to C5 as stated: the empty ciphertext list has all its
decrypted values (vacuously) in `[0, p)`, yet `decrypt` does not return an
`OUT_LEN`-byte array — the final conversion panics. -/
theorem decrypt_empty_list_panics :
    (∀ c ∈ ([] : List Ct), decRadix c < p) ∧ decrypt ([] : List Ct) = none := by
  decide

/-- Claim C5 (amended with the length precondition): for a list of exactly
`OUT_LEN / P_BYTES` ciphertexts with decrypted values in `[0, p)`,
`decrypt` returns the concatenation, in row order, of the lowest `P_BYTES`
little-endian bytes of each decrypted value, and that concatenation is
exactly `OUT_LEN` bytes. -/
theorem decrypt_concat_bytes (cts : List Ct)
    (hlen : cts.length = OUT_LEN / P_BYTES)
    (hval : ∀ c ∈ cts, decRadix c < p) :
    decrypt cts = some ((cts.map fun c => lowLEBytes (decRadix c)).flatten) ∧
      ((cts.map fun c => lowLEBytes (decRadix c)).flatten).length = OUT_LEN := by
  have hmap : (cts.map decryptCtBytes) = cts.map fun c => lowLEBytes (decRadix c) := by
    apply List.map_congr_left
    intro c _
    rw [decryptCtBytes, leBytesChunk_eq_lowLEBytes]
  have hflat : ((cts.map fun c => lowLEBytes (decRadix c)).flatten).length = OUT_LEN := by
    rw [← hmap]
    have h1 : ((cts.map decryptCtBytes).flatten).length = cts.length * P_BYTES := by
      rw [List.length_flatten, List.map_map]
      have h2 : (cts.map (List.length ∘ decryptCtBytes))
          = cts.map fun _ => P_BYTES := by
        apply List.map_congr_left
        intro c _
        simp [decryptCtBytes, leBytesChunk_length]
      rw [h2, List.map_const']
      simp [List.sum_replicate, smul_eq_mul, Nat.mul_comm]
    rw [h1, hlen]
    decide
  refine ⟨?_, hflat⟩
  unfold decrypt
  rw [hmap, if_pos hflat]

/-- Witness for C5 (amended) at a concrete ciphertext list. -/
theorem decrypt_concat_bytes_witness :
    (List.replicate 16 (Ct.mk 3 0)).length = OUT_LEN / P_BYTES ∧
      decrypt (List.replicate 16 (Ct.mk 3 0))
        = some (((List.replicate 16 (Ct.mk 3 0)).map fun c =>
            lowLEBytes (decRadix c)).flatten) :=
  ⟨by decide,
   (decrypt_concat_bytes (List.replicate 16 (Ct.mk 3 0)) (by decide) (by decide)).1⟩

/-- Counterexample to C10 as stated: a matrix whose rows are all non-empty
can still make the unwrap in `vec_mul_vec` panic, because `zip` truncates to
the PRF key — with an empty key the summed list is empty. -/
theorem eval_nonempty_rows_still_panics :
    (∀ row ∈ ([[Ct.mk 1 0]] : List (List Ct)), row ≠ []) ∧
      eval [] [[Ct.mk 1 0]] = none := by
  decide

/-- Claim C10 (amended with a non-empty PRF key): with a non-empty key, the
unwrap never panics on a matrix with only non-empty rows; and whenever some
row is empty, `eval` panics. -/
theorem eval_panic_characterization (s : List Nat) (h : List (List Ct))
    (hs : s ≠ []) :
    ((∀ row ∈ h, row ≠ []) → (eval s h).isSome) ∧
      ((∃ row ∈ h, row = []) → eval s h = none) := by
  constructor
  · intro hrows
    unfold eval mat_mul_vec
    have h1 : (h.mapM fun row => vec_mul_vec row s).isSome :=
      mapM_isSome fun row hrow => vec_mul_vec_isSome row s (hrows row hrow) hs
    cases hm : h.mapM fun row => vec_mul_vec row s with
    | none => rw [hm] at h1; simp at h1
    | some w => simp [hm]
  · rintro ⟨row, hmem, hnil⟩
    cases heval : eval s h with
    | none => rfl
    | some v =>
      obtain ⟨hrows, _⟩ := eval_some_inv s h v heval
      exact absurd hnil (hrows row hmem)

/-- Witness for C10 (amended) at a concrete key and matrix. -/
theorem eval_panic_characterization_witness :
    ([3] : List Nat) ≠ [] ∧
      (((∀ row ∈ ([[Ct.mk 2 0]] : List (List Ct)), row ≠ []) →
          (eval [3] [[Ct.mk 2 0]]).isSome) ∧
        ((∃ row ∈ ([[Ct.mk 2 0]] : List (List Ct)), row = []) →
          eval [3] [[Ct.mk 2 0]] = none)) :=
  ⟨by decide, eval_panic_characterization [3] [[Ct.mk 2 0]] (by decide)⟩

/-- The pipeline output depends only on the hash, the seeded generator, the
key and the input — the encryption randomness `ρ` drops out entirely. -/
lemma pipeline_eq_vals (D : List Nat → List Nat) (R : Nat → Nat → Nat)
    (s : List Nat) (x : List Nat) (ρ : Nat → Nat → Nat) (hs : s ≠ []) :
    pipeline D R s x ρ
      = decryptVals ((encodeVals D R x).map fun rv =>
          rowVal rv s / 2 ^ (LOG2Q - LOG2P)) := by
  unfold pipeline
  rw [eval_eq_some s (encode D R x ρ) (encode_row_ne_nil D R x ρ) hs]
  simp only [Option.some_bind]
  rw [decrypt_eq_decryptVals]
  congr 1

/-- Claim C1: for every PRF secret key (a vector of `LATTICE_DIM` ring
elements) and every input byte string, the full pipeline
`encode → eval → decrypt` produces the same `OUT_LEN`-byte output on every
run, whatever encryption randomness each run uses. -/
theorem pipeline_deterministic (D : List Nat → List Nat) (R : Nat → Nat → Nat)
    (s : List Nat) (x : List Nat) (ρ1 ρ2 : Nat → Nat → Nat)
    (hs : s.length = LATTICE_DIM) :
    ∃ out, pipeline D R s x ρ1 = some out ∧ pipeline D R s x ρ2 = some out ∧
      out.length = OUT_LEN := by
  have hsne : s ≠ [] := by
    intro hnil
    rw [hnil] at hs
    exact absurd hs (by decide)
  have hts : ((encodeVals D R x).map fun rv =>
      rowVal rv s / 2 ^ (LOG2Q - LOG2P)).length = OUT_LEN / P_BYTES := by
    simp [encodeVals]
    decide
  refine ⟨((((encodeVals D R x).map fun rv =>
      rowVal rv s / 2 ^ (LOG2Q - LOG2P)).map fun t =>
        leBytesChunk (t % radixMod)).flatten), ?_, ?_, ?_⟩
  · rw [pipeline_eq_vals D R s x ρ1 hsne, decryptVals_eq, if_pos hts]
  · rw [pipeline_eq_vals D R s x ρ2 hsne, decryptVals_eq, if_pos hts]
  · rw [decryptVals_flatten_length, hts]
    decide

/-- Witness for C1 at a concrete hash, generator, key and input. -/
theorem pipeline_deterministic_witness :
    ([1, 2, 3, 4, 5, 6, 7, 8] : List Nat).length = LATTICE_DIM ∧
      ∃ out,
        pipeline (fun _ => List.replicate 32 7) (fun _ i => i * 1000 + 77)
            [1, 2, 3, 4, 5, 6, 7, 8] [1, 2, 3] (fun i j => i + j) = some out ∧
          pipeline (fun _ => List.replicate 32 7) (fun _ i => i * 1000 + 77)
              [1, 2, 3, 4, 5, 6, 7, 8] [1, 2, 3] (fun i j => i * j + 5) = some out ∧
            out.length = OUT_LEN :=
  ⟨by decide,
   pipeline_deterministic (fun _ => List.replicate 32 7) (fun _ i => i * 1000 + 77)
     [1, 2, 3, 4, 5, 6, 7, 8] [1, 2, 3] (fun i j => i + j) (fun i j => i * j + 5)
     (by decide)⟩

/-- Claim C2: rounding correctness — decrypting every row of the
homomorphic evaluation of the encryption of a plaintext matrix equals the
clear matrix–vector product modulo `q` followed by the
`>> (LOG2Q - LOG2P)` rounding, row by row. -/
theorem eval_matches_clear (h : List (List Nat)) (s : List Nat)
    (ρ : Nat → Nat → Nat) (v : List Ct)
    (hdim : ∀ row ∈ h, row.length = s.length)
    (hent : ∀ row ∈ h, ∀ a ∈ row, a < q)
    (heval : eval s (encryptMatrix h ρ) = some v) :
    v.map decRadix = h.map fun row => clearRowRound row s := by
  obtain ⟨hrows, hcase⟩ := eval_some_inv s (encryptMatrix h ρ) v heval
  rcases hcase with hnil | hsne
  · have hh : h = [] := by
      have := encryptMatrix_length h ρ
      rw [hnil] at this
      exact List.length_eq_zero.mp this.symm
    subst hh
    rw [hnil] at heval
    have hv : v = [] := by
      have : eval s [] = some [] := rfl
      rw [this] at heval
      exact (Option.some.injEq _ _).mp heval.symm
    subst hv
    rfl
  · rw [eval_eq_some s (encryptMatrix h ρ) hrows hsne] at heval
    have hv := (Option.some.injEq _ _).mp heval.symm
    subst hv
    rw [List.map_map]
    have h1 : (encryptMatrix h ρ).map
          (decRadix ∘ fun row =>
            (⟨rowVal (row.map Ct.val) s / 2 ^ (LOG2Q - LOG2P),
              ((row.zip s).map fun ab => ab.1.rand).sum⟩ : Ct))
        = (encryptMatrix h ρ).map
            fun row => rowVal (row.map Ct.val) s / 2 ^ (LOG2Q - LOG2P) := by
      apply List.map_congr_left
      intro row _
      have hlt : rowVal (row.map Ct.val) s / 2 ^ (LOG2Q - LOG2P) < radixMod :=
        Nat.lt_of_le_of_lt (Nat.div_le_self _ _) (rowVal_lt _ _)
      simp [decRadix, Function.comp_apply, Nat.mod_eq_of_lt hlt]
    rw [h1]
    have h2 : (encryptMatrix h ρ).map
          (fun row => rowVal (row.map Ct.val) s / 2 ^ (LOG2Q - LOG2P))
        = ((encryptMatrix h ρ).map (List.map Ct.val)).map
            fun rv => rowVal rv s / 2 ^ (LOG2Q - LOG2P) := by
      rw [List.map_map]
      rfl
    rw [h2, encryptMatrix_map_val, List.map_map]
    apply List.map_congr_left
    intro row _
    exact rowVal_clear row s

/-- Witness for C2 at a concrete matrix, key and randomness. -/
theorem eval_matches_clear_witness :
    (∀ row ∈ ([[5, 7]] : List (List Nat)), row.length = ([3, 1] : List Nat).length) ∧
      ([Ct.mk 1 0] : List Ct).map decRadix
        = ([[5, 7]] : List (List Nat)).map fun row => clearRowRound row [3, 1] :=
  ⟨by decide,
   eval_matches_clear [[5, 7]] [3, 1] (fun _ _ => 0) [Ct.mk 1 0]
     (by decide) (by decide) (by decide)⟩

/-- Claim C3: a successful `eval` computes every row by scalar-multiplying
each ciphertext entry with the matching plaintext key scalar,
homomorphically summing the products, and right-shifting the sum by exactly
`LOG2Q - LOG2P` bits. -/
theorem eval_row_structure (s : List Nat) (h : List (List Ct)) (v : List Ct)
    (heval : eval s h = some v) :
    v.length = h.length ∧
      ∀ i (h1 : i < h.length) (h2 : i < v.length),
        ∃ c, unchecked_sum_ciphertexts_vec_parallelized
            (((h.get ⟨i, h1⟩).zip s).map fun ab =>
              scalar_mul_parallelized ab.1 ab.2) = some c ∧
          v.get ⟨i, h2⟩ = scalar_right_shift_parallelized c (LOG2Q - LOG2P) := by
  unfold eval at heval
  cases hmat : mat_mul_vec h s with
  | none => rw [hmat] at heval; simp at heval
  | some w =>
    rw [hmat] at heval
    simp only [Option.map_some', Option.some.injEq] at heval
    obtain ⟨hlen, hget⟩ := mapM_eq_some hmat
    subst heval
    refine ⟨by simp [hlen], ?_⟩
    intro i h1 h2
    have hw : i < w.length := by omega
    refine ⟨w.get ⟨i, hw⟩, hget i h1 hw, ?_⟩
    simp [List.get_eq_getElem, List.getElem_map]

/-- Witness for C3 at a concrete key and matrix. -/
theorem eval_row_structure_witness :
    (eval [3] [[Ct.mk 2 0]] = some [Ct.mk 0 0]) ∧
      ([Ct.mk 0 0] : List Ct).length = ([[Ct.mk 2 0]] : List (List Ct)).length :=
  ⟨by decide, (eval_row_structure [3] [[Ct.mk 2 0]] [Ct.mk 0 0] (by decide)).1⟩

/-- Claim C8: range invariant — every pre-rounding row value (the output of
`mat_mul_vec`) decrypts below `q`, and every ciphertext returned by `eval`
decrypts below `p`. -/
theorem eval_range_invariant (s : List Nat) (h : List (List Ct)) (w v : List Ct)
    (hent : ∀ row ∈ h, ∀ c ∈ row, decRadix c < q)
    (hkey : ∀ a ∈ s, a < q)
    (hmat : mat_mul_vec h s = some w)
    (heval : eval s h = some v) :
    (∀ c ∈ w, decRadix c < q) ∧ ∀ c ∈ v, decRadix c < p := by
  constructor
  · intro c _
    exact Nat.mod_lt _ radixMod_pos
  · intro c hc
    unfold eval at heval
    rw [hmat] at heval
    simp only [Option.map_some', Option.some.injEq] at heval
    subst heval
    obtain ⟨d, _, hd⟩ := List.mem_map.mp hc
    subst hd
    have hlt : d.val % radixMod / 2 ^ (LOG2Q - LOG2P) < p := shift_lt_p d.val
    have hpq : p < radixMod := by decide
    simp [decRadix, scalar_right_shift_parallelized,
      Nat.mod_eq_of_lt (Nat.lt_trans hlt hpq)]
    exact hlt

/-- Witness for C8 at a concrete key and matrix. -/
theorem eval_range_invariant_witness :
    mat_mul_vec [[Ct.mk 1 0]] [1] = some [Ct.mk 1 0] ∧
      (∀ c ∈ ([Ct.mk 1 0] : List Ct), decRadix c < q) ∧
        ∀ c ∈ ([Ct.mk 0 0] : List Ct), decRadix c < p :=
  ⟨by decide,
   eval_range_invariant [1] [[Ct.mk 1 0]] [Ct.mk 1 0] [Ct.mk 0 0]
     (by decide) (by decide) (by decide) (by decide)⟩

end LatticeOprf
